import Mathlib

/-!
Verification of the TestU01 battery wrapper (`src/rng/bigcrush_wrapper.c`).

The program reads raw bytes from standard input through a fixed-capacity
buffer, decodes them as little-endian 32-bit unsigned integers, and exposes
them to an external test battery through two accessors (`stdin_bits`,
`stdin_u01`).  `main` parses command-line flags and dispatches one battery.

Embedding conventions:
* Bytes are modelled as `Nat`; the C type `uint8_t` guarantees values below
  256, which appears as an explicit hypothesis where it matters.
* The C globals `buffer`, `buffer_pos`, `buffer_len` and the unread part of
  standard input form the explicit state `ReaderState`.  The C array
  `buffer` together with `buffer_len` is modelled as the list `buffer`
  holding exactly the `buffer_len` bytes delivered by the most recent
  `fread` (bytes past `buffer_len` are never inspected by the C code), so
  `buffer_len` is `buffer.length`.
* `fread(buffer, 1, BUFFER_SIZE, stdin)` delivers some number of bytes
  between 1 and `BUFFER_SIZE` unless the stream is at end-of-file.  The
  field `sched` records the delivery size of each successive `fread` call
  (clamped to `[1, BUFFER_SIZE]` and to the bytes remaining); an empty
  schedule means every `fread` delivers as much as possible, which is the
  behaviour of a blocking `fread` that short-reads only at end-of-file.
* `exit(1)` after the "stdin exhausted" message is modelled by `Option`:
  `none` means the process terminated with nonzero status having produced
  no value.
-/

namespace BigcrushWrapper

/-- `#define BUFFER_SIZE 4096`. -/
def BUFFER_SIZE : Nat := 4096

/-- The mutable state of the stream reader: the bytes of standard input not
yet delivered by `fread`, the valid contents of the C `buffer` array (the
first `buffer_len` cells, so the C `buffer_len` is `buffer.length` here),
the cursor `buffer_pos`, and the `fread` delivery schedule. -/
structure ReaderState where
  input : List Nat
  buffer : List Nat
  buffer_pos : Nat
  sched : List Nat
deriving Repr, DecidableEq

/-- The process-start state: `buffer_pos = BUFFER_SIZE`, `buffer_len = 0`
("start empty to trigger first read"), all of standard input pending. -/
def initState (input : List Nat) (sched : List Nat) : ReaderState :=
  { input := input, buffer := [], buffer_pos := BUFFER_SIZE, sched := sched }

/-- The logical byte stream still unread: the unread tail of the buffer
followed by the bytes `fread` has not yet delivered. -/
def streamBytes (s : ReaderState) : List Nat :=
  s.buffer.drop s.buffer_pos ++ s.input

/-- `refill_buffer`: one `fread(buffer, 1, BUFFER_SIZE, stdin)` call
delivering `min (max sched.head 1) BUFFER_SIZE` bytes (capped by the bytes
remaining), then `buffer_pos = 0`; returns `buffer_len > 0`. -/
def refill_buffer (s : ReaderState) : Bool × ReaderState :=
  let n := min (max (s.sched.headD BUFFER_SIZE) 1) BUFFER_SIZE
  let chunk := s.input.take n
  (decide (0 < chunk.length),
   { input := s.input.drop n, buffer := chunk, buffer_pos := 0,
     sched := s.sched.tail })

/-- One iteration of the loop body of `read_uint32`: if
`buffer_pos >= buffer_len`, refill, and exit (`none`) if no bytes were
read; then consume `buffer[buffer_pos++]`. -/
def read_byte (s : ReaderState) : Option (Nat × ReaderState) :=
  if s.buffer_pos ≥ s.buffer.length then
    let p := refill_buffer s
    if p.1 then
      some (p.2.buffer.getD p.2.buffer_pos 0,
            { p.2 with buffer_pos := p.2.buffer_pos + 1 })
    else
      none
  else
    some (s.buffer.getD s.buffer_pos 0,
          { s with buffer_pos := s.buffer_pos + 1 })

/-- The accumulation `value |= byte << (i * 8)` of `read_uint32`, unrolled
for `i = 0, 1, 2, 3` starting from `value = 0`. -/
def le32 (b0 b1 b2 b3 : Nat) : Nat :=
  (((0 ||| (b0 <<< (0 * 8))) ||| (b1 <<< (1 * 8))) ||| (b2 <<< (2 * 8)))
    ||| (b3 <<< (3 * 8))

/-- `read_uint32`: four loop iterations, each consuming one byte; `none`
models `exit(1)` after the "stdin exhausted" diagnostic on standard
error (no value is returned to the caller). -/
def read_uint32 (s : ReaderState) : Option (Nat × ReaderState) :=
  match read_byte s with
  | none => none
  | some (b0, s0) =>
    match read_byte s0 with
    | none => none
    | some (b1, s1) =>
      match read_byte s1 with
      | none => none
      | some (b2, s2) =>
        match read_byte s2 with
        | none => none
        | some (b3, s3) => some (le32 b0 b1 b2 b3, s3)

/-- `read_uint32` iterated `k` times, collecting the produced values in
order. -/
def reads : Nat → ReaderState → Option (List Nat × ReaderState)
  | 0, s => some ([], s)
  | Nat.succ k, s =>
    match read_uint32 s with
    | none => none
    | some (v, s') =>
      match reads k s' with
      | none => none
      | some (vs, s'') => some (v :: vs, s'')

/-- `stdin_bits`: returns `read_uint32()` (the C cast to `unsigned long`
widens without changing the value). -/
def stdin_bits (s : ReaderState) : Option (Nat × ReaderState) :=
  read_uint32 s

/-- `stdin_u01`: returns `read_uint32() / 4294967296.0`.  A `uint32_t`
value and its division by the power of two `2 ^ 32` are both exact in IEEE
double precision (at most 32 significant bits), so the C double arithmetic
is modelled exactly by `ℚ`. -/
def stdin_u01 (s : ReaderState) : Option (ℚ × ReaderState) :=
  match read_uint32 s with
  | none => none
  | some (v, s') => some ((v : ℚ) / 4294967296, s')

/-- The little-endian value of four bytes, written as the specification
states it: the first byte consumed is the least-significant byte. -/
def leDecodeSpec (b0 b1 b2 b3 : Nat) : Nat :=
  b0 + b1 * 256 + b2 * 65536 + b3 * 16777216

/-- The 4-byte little-endian groups of a byte list, decoded in input order
by the specification's arithmetic formula; a trailing group of fewer than
4 bytes produces no value. -/
def leSpecGroups : List Nat → List Nat
  | b0 :: b1 :: b2 :: b3 :: rest => leDecodeSpec b0 b1 b2 b3 :: leSpecGroups rest
  | _ => []

/-- The 4-byte groups of a byte list decoded by the code's or/shift
accumulation `le32`. -/
def leGroups32 : List Nat → List Nat
  | b0 :: b1 :: b2 :: b3 :: rest => le32 b0 b1 b2 b3 :: leGroups32 rest
  | _ => []

/-- Which accessor an interleaved battery call uses. -/
inductive Accessor where
  | bits
  | u01
deriving Repr, DecidableEq

/-- The value a single accessor call delivers to the battery when the
underlying draw is `v`. -/
def outOf : Accessor → Nat → Nat ⊕ ℚ
  | Accessor.bits, v => Sum.inl v
  | Accessor.u01, v => Sum.inr ((v : ℚ) / 4294967296)

/-- One battery callback: dispatch to `stdin_bits` or `stdin_u01`. -/
def callAcc : Accessor → ReaderState → Option ((Nat ⊕ ℚ) × ReaderState)
  | Accessor.bits, s =>
    match stdin_bits s with
    | none => none
    | some (v, s') => some (Sum.inl v, s')
  | Accessor.u01, s =>
    match stdin_u01 s with
    | none => none
    | some (q, s') => some (Sum.inr q, s')

/-- An arbitrary interleaving of battery callbacks, collecting the values
delivered in call order. -/
def runCalls : List Accessor → ReaderState → Option (List (Nat ⊕ ℚ) × ReaderState)
  | [], s => some ([], s)
  | c :: cs, s =>
    match callAcc c s with
    | none => none
    | some (o, s') =>
      match runCalls cs s' with
      | none => none
      | some (os, s'') => some (o :: os, s'')

/-- The states of the stream reader reachable from process start by byte
consumptions (each `read_uint32` is four `read_byte` steps, and each
refill happens inside the `read_byte` that needed it). -/
inductive Reachable (input : List Nat) : ReaderState → Prop where
  | start : Reachable input (initState input [])
  | step (s : ReaderState) (b : Nat) (s' : ReaderState) :
      Reachable input s → read_byte s = some (b, s') → Reachable input s'

/-! ### Core lemmas about the stream reader -/

theorem streamBytes_initState (input sched : List Nat) :
    streamBytes (initState input sched) = input := by
  simp [streamBytes, initState]

theorem read_byte_of_streamBytes_nil (s : ReaderState)
    (h : streamBytes s = []) : read_byte s = none := by
  rcases List.append_eq_nil.mp h with ⟨hbuf, hin⟩
  have hpos : s.buffer.length ≤ s.buffer_pos := List.drop_eq_nil_iff.mp hbuf
  simp [read_byte, refill_buffer, hin, hpos]

theorem read_byte_of_streamBytes_cons (s : ReaderState) (b : Nat)
    (rest : List Nat) (h : streamBytes s = b :: rest) :
    ∃ s', read_byte s = some (b, s') ∧ streamBytes s' = rest := by
  by_cases hpos : s.buffer.length ≤ s.buffer_pos
  · -- the buffer is drained: a refill happens
    have hbuf : s.buffer.drop s.buffer_pos = [] := List.drop_eq_nil_iff.mpr hpos
    have hin : s.input = b :: rest := by
      simpa [streamBytes, hbuf] using h
    set n := min (max (s.sched.headD BUFFER_SIZE) 1) BUFFER_SIZE with hn
    have hn1 : 1 ≤ n := le_min (le_max_right _ _) (by norm_num [BUFFER_SIZE])
    obtain ⟨m, hm⟩ : ∃ m, n = m + 1 := ⟨n - 1, by omega⟩
    have htake : s.input.take n = b :: rest.take m := by
      rw [hin, hm, List.take_succ_cons]
    have hdrop : s.input.drop n = rest.drop m := by
      rw [hin, hm, List.drop_succ_cons]
    refine ⟨{ input := rest.drop m, buffer := b :: rest.take m,
              buffer_pos := 1, sched := s.sched.tail }, ?_, ?_⟩
    · simp only [read_byte, if_pos hpos, refill_buffer]
      rw [← hn, htake, hdrop]
      simp
    · simp [streamBytes]
  · -- an unread byte remains in the buffer
    push_neg at hpos
    have hdrop := List.drop_eq_getElem_cons hpos
    rw [streamBytes, hdrop, List.cons_append] at h
    have hb : s.buffer[s.buffer_pos] = b := (List.cons_eq_cons.mp h).1
    have hrest : s.buffer.drop (s.buffer_pos + 1) ++ s.input = rest :=
      (List.cons_eq_cons.mp h).2
    refine ⟨{ s with buffer_pos := s.buffer_pos + 1 }, ?_, ?_⟩
    · simp only [read_byte, if_neg (by omega : ¬ s.buffer_pos ≥ s.buffer.length)]
      simp [List.getD_eq_getElem?_getD, List.getElem?_eq_getElem hpos, hb]
    · simpa [streamBytes] using hrest

theorem read_uint32_of_four (s : ReaderState) (b0 b1 b2 b3 : Nat)
    (rest : List Nat) (h : streamBytes s = b0 :: b1 :: b2 :: b3 :: rest) :
    ∃ s', read_uint32 s = some (le32 b0 b1 b2 b3, s') ∧ streamBytes s' = rest := by
  obtain ⟨s0, h0, hs0⟩ := read_byte_of_streamBytes_cons s b0 _ h
  obtain ⟨s1, h1, hs1⟩ := read_byte_of_streamBytes_cons s0 b1 _ hs0
  obtain ⟨s2, h2, hs2⟩ := read_byte_of_streamBytes_cons s1 b2 _ hs1
  obtain ⟨s3, h3, hs3⟩ := read_byte_of_streamBytes_cons s2 b3 _ hs2
  exact ⟨s3, by simp [read_uint32, h0, h1, h2, h3], hs3⟩

theorem read_uint32_of_short (s : ReaderState)
    (h : (streamBytes s).length < 4) : read_uint32 s = none := by
  rcases hl : streamBytes s with _ | ⟨b0, _ | ⟨b1, _ | ⟨b2, l3⟩⟩⟩
  · simp [read_uint32, read_byte_of_streamBytes_nil s hl]
  · obtain ⟨s0, h0, hs0⟩ := read_byte_of_streamBytes_cons s b0 _ hl
    simp [read_uint32, h0, read_byte_of_streamBytes_nil s0 hs0]
  · obtain ⟨s0, h0, hs0⟩ := read_byte_of_streamBytes_cons s b0 _ hl
    obtain ⟨s1, h1, hs1⟩ := read_byte_of_streamBytes_cons s0 b1 _ hs0
    simp [read_uint32, h0, h1, read_byte_of_streamBytes_nil s1 hs1]
  · rcases l3 with _ | ⟨b3, l4⟩
    · obtain ⟨s0, h0, hs0⟩ := read_byte_of_streamBytes_cons s b0 _ hl
      obtain ⟨s1, h1, hs1⟩ := read_byte_of_streamBytes_cons s0 b1 _ hs0
      obtain ⟨s2, h2, hs2⟩ := read_byte_of_streamBytes_cons s1 b2 _ hs1
      simp [read_uint32, h0, h1, h2, read_byte_of_streamBytes_nil s2 hs2]
    · rw [hl] at h
      simp only [List.length_cons] at h
      omega

theorem leGroups32_cons (b0 b1 b2 b3 : Nat) (rest : List Nat) :
    leGroups32 (b0 :: b1 :: b2 :: b3 :: rest) =
      le32 b0 b1 b2 b3 :: leGroups32 rest := rfl

theorem reads_of_streamBytes (k : Nat) :
    ∀ (s : ReaderState) (l : List Nat), streamBytes s = l →
      4 * k ≤ l.length →
      ∃ s', reads k s = some (leGroups32 (l.take (4 * k)), s') ∧
        streamBytes s' = l.drop (4 * k) := by
  induction k with
  | zero => intro s l hl _; exact ⟨s, by simp [reads, leGroups32], by simpa using hl⟩
  | succ k ih =>
    intro s l hl hk
    rcases l with _ | ⟨b0, _ | ⟨b1, _ | ⟨b2, _ | ⟨b3, rest⟩⟩⟩⟩ <;>
      simp only [List.length_nil, List.length_cons] at hk <;> try omega
    obtain ⟨s1, h1, hs1⟩ := read_uint32_of_four s b0 b1 b2 b3 rest hl
    have hk' : 4 * k ≤ rest.length := by omega
    obtain ⟨s', h', hs'⟩ := ih s1 rest hs1 hk'
    have harith : 4 * (k + 1) = 4 * k + 1 + 1 + 1 + 1 := by ring
    refine ⟨s', ?_, ?_⟩
    · rw [harith, List.take_succ_cons, List.take_succ_cons, List.take_succ_cons,
        List.take_succ_cons, leGroups32_cons]
      simp [reads, h1, h']
    · rw [harith, List.drop_succ_cons, List.drop_succ_cons, List.drop_succ_cons,
        List.drop_succ_cons]
      exact hs'

/-! ### The or/shift accumulation is little-endian base-256 arithmetic -/

theorem lor_shiftLeft_eq_add (x y k : Nat) (hx : x < 2 ^ k) :
    x ||| (y <<< k) = x + y * 2 ^ k := by
  rw [Nat.shiftLeft_eq, Nat.or_comm, Nat.mul_comm y (2 ^ k),
    ← Nat.mul_add_lt_is_or hx y]
  omega

theorem le32_eq_leDecodeSpec (b0 b1 b2 b3 : Nat) (h0 : b0 < 256)
    (h1 : b1 < 256) (h2 : b2 < 256) (h3 : b3 < 256) :
    le32 b0 b1 b2 b3 = leDecodeSpec b0 b1 b2 b3 := by
  have e0 : (0 : Nat) ||| (b0 <<< (0 * 8)) = b0 := by
    simp [Nat.shiftLeft_eq]
  have e1 : b0 ||| (b1 <<< (1 * 8)) = b0 + b1 * 256 := by
    simpa using lor_shiftLeft_eq_add b0 b1 8 (by omega)
  have e2 : (b0 + b1 * 256) ||| (b2 <<< (2 * 8)) = b0 + b1 * 256 + b2 * 65536 := by
    simpa using lor_shiftLeft_eq_add (b0 + b1 * 256) b2 16 (by omega)
  have e3 : (b0 + b1 * 256 + b2 * 65536) ||| (b3 <<< (3 * 8)) =
      b0 + b1 * 256 + b2 * 65536 + b3 * 16777216 := by
    simpa using lor_shiftLeft_eq_add (b0 + b1 * 256 + b2 * 65536) b3 24 (by omega)
  rw [le32, e0, e1, e2, e3, leDecodeSpec]

theorem le32_lt (b0 b1 b2 b3 : Nat) (h0 : b0 < 256) (h1 : b1 < 256)
    (h2 : b2 < 256) (h3 : b3 < 256) : le32 b0 b1 b2 b3 < 4294967296 := by
  rw [le32_eq_leDecodeSpec b0 b1 b2 b3 h0 h1 h2 h3, leDecodeSpec]
  omega

theorem leGroups32_eq_leSpecGroups (l : List Nat) (h : ∀ b ∈ l, b < 256) :
    leGroups32 l = leSpecGroups l := by
  induction l using leGroups32.induct with
  | case1 b0 b1 b2 b3 rest ih =>
    simp only [List.mem_cons] at h
    rw [leGroups32, leSpecGroups,
      le32_eq_leDecodeSpec b0 b1 b2 b3 (h b0 (by tauto)) (h b1 (by tauto))
        (h b2 (by tauto)) (h b3 (by tauto)),
      ih (fun b hb => h b (by tauto))]
  | case2 l hne => rw [leGroups32, leSpecGroups] <;> exact hne

/-! ### Claim theorems -/

/-- C1: for every input byte stream whose length is a multiple of 4,
calling `read_uint32` `length / 4` times returns exactly the sequence of
4-byte little-endian decoded groups of the input, in input order, with no
value repeated, skipped, or synthesized, and consumes the whole stream. -/
theorem c1_reads_reproduce_groups (input : List Nat) (k : Nat)
    (hlen : input.length = 4 * k) (hb : ∀ b ∈ input, b < 256) :
    ∃ s', reads k (initState input []) = some (leSpecGroups input, s') ∧
      streamBytes s' = [] := by
  obtain ⟨s', h, hs⟩ := reads_of_streamBytes k (initState input []) input
    (streamBytes_initState input []) (by omega)
  rw [← hlen, List.take_length, leGroups32_eq_leSpecGroups input hb] at h
  rw [← hlen, List.drop_length] at hs
  exact ⟨s', h, hs⟩

/-- Witness for C1 on the 8-byte input `01 00 00 00 FF FF FF FF`. -/
theorem c1_witness :
    ((List.length [1, 0, 0, 0, 255, 255, 255, 255] = 4 * 2) ∧
      (∀ b ∈ [1, 0, 0, 0, 255, 255, 255, 255], b < 256)) ∧
    (∃ s', reads 2 (initState [1, 0, 0, 0, 255, 255, 255, 255] []) =
        some (leSpecGroups [1, 0, 0, 0, 255, 255, 255, 255], s') ∧
      streamBytes s' = []) :=
  ⟨⟨by decide, by decide⟩,
    c1_reads_reproduce_groups [1, 0, 0, 0, 255, 255, 255, 255] 2
      (by decide) (by decide)⟩

/-- C2: `read_uint32` assembles the next 4 bytes of the stream
little-endian, the first byte consumed being the least-significant byte;
in particular `01 00 00 00` decodes to 1 and `FF FF FF FF` decodes to
4294967295. -/
theorem c2_read_uint32_little_endian :
    (∀ (s : ReaderState) (b0 b1 b2 b3 : Nat) (rest : List Nat),
        streamBytes s = b0 :: b1 :: b2 :: b3 :: rest →
        b0 < 256 → b1 < 256 → b2 < 256 → b3 < 256 →
        ∃ s', read_uint32 s =
            some (b0 + b1 * 256 + b2 * 65536 + b3 * 16777216, s') ∧
          streamBytes s' = rest) ∧
    (∃ s', read_uint32 (initState [1, 0, 0, 0] []) = some (1, s')) ∧
    (∃ s', read_uint32 (initState [255, 255, 255, 255] []) =
      some (4294967295, s')) := by
  refine ⟨?_, ?_, ?_⟩
  · intro s b0 b1 b2 b3 rest h h0 h1 h2 h3
    obtain ⟨s', hr, hs⟩ := read_uint32_of_four s b0 b1 b2 b3 rest h
    rw [le32_eq_leDecodeSpec b0 b1 b2 b3 h0 h1 h2 h3, leDecodeSpec] at hr
    exact ⟨s', hr, hs⟩
  · exact ⟨{ input := [], buffer := [1, 0, 0, 0], buffer_pos := 4,
             sched := [] }, by decide⟩
  · exact ⟨{ input := [], buffer := [255, 255, 255, 255], buffer_pos := 4,
             sched := [] }, by decide⟩

/-- Witness for C2's general clause on the stream `02 01 00 00`. -/
theorem c2_witness :
    (streamBytes (initState [2, 1, 0, 0] []) = 2 :: 1 :: 0 :: 0 :: [] ∧
      2 < 256 ∧ 1 < 256 ∧ 0 < 256) ∧
    (∃ s', read_uint32 (initState [2, 1, 0, 0] []) =
        some (2 + 1 * 256 + 0 * 65536 + 0 * 16777216, s') ∧
      streamBytes s' = []) :=
  ⟨⟨by decide, by decide, by decide, by decide⟩,
    c2_read_uint32_little_endian.1 (initState [2, 1, 0, 0] []) 2 1 0 0 []
      (by decide) (by decide) (by decide) (by decide) (by decide)⟩

/-- C3: for every input whose length is not a multiple of 4, the first
`⌊length/4⌋` calls to `read_uint32` succeed, and the next call produces no
value at all (`none`, modelling the StreamExhausted diagnostic on standard
error followed by `exit(1)`): no partial or zero-padded value is ever
returned. -/
theorem c3_exhaustion_no_partial (input : List Nat)
    (h : input.length % 4 ≠ 0) :
    ∃ s', reads (input.length / 4) (initState input []) =
        some (leGroups32 (input.take (4 * (input.length / 4))), s') ∧
      read_uint32 s' = none := by
  have hdm := Nat.div_add_mod input.length 4
  have hmlt : input.length % 4 < 4 := Nat.mod_lt _ (by omega)
  obtain ⟨s', hr, hs⟩ := reads_of_streamBytes (input.length / 4)
    (initState input []) input (streamBytes_initState input []) (by omega)
  refine ⟨s', hr, read_uint32_of_short s' ?_⟩
  rw [hs, List.length_drop]
  omega

/-- Witness for C3 on the spec's 6-byte scenario `01 00 00 00 AA BB`. -/
theorem c3_witness :
    (List.length [1, 0, 0, 0, 170, 187] % 4 ≠ 0) ∧
    (∃ s', reads (List.length [1, 0, 0, 0, 170, 187] / 4)
          (initState [1, 0, 0, 0, 170, 187] []) =
        some (leGroups32 (List.take
          (4 * (List.length [1, 0, 0, 0, 170, 187] / 4))
          [1, 0, 0, 0, 170, 187]), s') ∧
      read_uint32 s' = none) :=
  ⟨by decide, c3_exhaustion_no_partial [1, 0, 0, 0, 170, 187] (by decide)⟩

theorem runCalls_of_streamBytes (cs : List Accessor) :
    ∀ (s : ReaderState) (l : List Nat), streamBytes s = l →
      4 * cs.length ≤ l.length →
      ∃ s', runCalls cs s =
          some (List.zipWith outOf cs (leGroups32 l), s') ∧
        streamBytes s' = l.drop (4 * cs.length) := by
  induction cs with
  | nil => intro s l hl _; exact ⟨s, by simp [runCalls], by simpa using hl⟩
  | cons c cs ih =>
    intro s l hl hk
    simp only [List.length_cons] at hk
    rcases l with _ | ⟨b0, _ | ⟨b1, _ | ⟨b2, _ | ⟨b3, rest⟩⟩⟩⟩ <;>
      simp only [List.length_nil, List.length_cons] at hk <;> try omega
    obtain ⟨s1, h1, hs1⟩ := read_uint32_of_four s b0 b1 b2 b3 rest hl
    obtain ⟨s', h', hs'⟩ := ih s1 rest hs1 (by omega)
    have harith : 4 * (cs.length + 1) = 4 * cs.length + 1 + 1 + 1 + 1 := by ring
    refine ⟨s', ?_, ?_⟩
    · rw [leGroups32_cons, List.zipWith_cons_cons]
      cases c
      · simp [runCalls, callAcc, stdin_bits, h1, h', outOf]
      · simp [runCalls, callAcc, stdin_u01, h1, h', outOf]
    · rw [List.length_cons, harith, List.drop_succ_cons, List.drop_succ_cons,
        List.drop_succ_cons, List.drop_succ_cons]
      exact hs'

/-- C4: `stdin_bits` and `stdin_u01` draw from one shared stream: any
interleaving of `k` total calls consumes exactly `4 * k` input bytes, the
first `4 * k` bytes in order, each consumed exactly once, and the `i`-th
call (of either accessor) delivers the `i`-th 4-byte draw, so no two calls
ever observe the same draw. -/
theorem c4_shared_stream (cs : List Accessor) (input : List Nat)
    (h : 4 * cs.length ≤ input.length) :
    ∃ s', runCalls cs (initState input []) =
        some (List.zipWith outOf cs (leGroups32 input), s') ∧
      streamBytes s' = input.drop (4 * cs.length) ∧
      input.length - (streamBytes s').length = 4 * cs.length := by
  obtain ⟨s', hr, hs⟩ := runCalls_of_streamBytes cs (initState input [])
    input (streamBytes_initState input []) h
  refine ⟨s', hr, hs, ?_⟩
  rw [hs, List.length_drop]
  omega

/-- Witness for C4: one `stdin_bits` call interleaved with one
`stdin_u01` call on an 8-byte input. -/
theorem c4_witness :
    (4 * List.length [Accessor.bits, Accessor.u01] ≤
      List.length [1, 0, 0, 0, 255, 255, 255, 255]) ∧
    (∃ s', runCalls [Accessor.bits, Accessor.u01]
          (initState [1, 0, 0, 0, 255, 255, 255, 255] []) =
        some (List.zipWith outOf [Accessor.bits, Accessor.u01]
          (leGroups32 [1, 0, 0, 0, 255, 255, 255, 255]), s') ∧
      streamBytes s' =
        List.drop (4 * List.length [Accessor.bits, Accessor.u01])
          [1, 0, 0, 0, 255, 255, 255, 255] ∧
      List.length [1, 0, 0, 0, 255, 255, 255, 255] -
          (streamBytes s').length =
        4 * List.length [Accessor.bits, Accessor.u01]) :=
  ⟨by decide, c4_shared_stream [Accessor.bits, Accessor.u01]
    [1, 0, 0, 0, 255, 255, 255, 255] (by decide)⟩

/-- C5: every successful `stdin_u01` call returns `read_uint32`
divided by `2 ^ 32`, a value in the half-open interval `[0, 1)`; the draw
0 maps to exactly 0 and the draw 4294967295 maps to a value strictly below
1.  (The C double arithmetic is exact here, see `stdin_u01`.) -/
theorem c5_u01_unit_interval (s : ReaderState) (q : ℚ) (s' : ReaderState)
    (hb : ∀ b ∈ streamBytes s, b < 256)
    (h : stdin_u01 s = some (q, s')) :
    ∃ v, read_uint32 s = some (v, s') ∧ q = (v : ℚ) / 4294967296 ∧
      0 ≤ q ∧ q < 1 ∧ (v = 0 → q = 0) ∧ (v = 4294967295 → q < 1) := by
  rcases hru : read_uint32 s with _ | ⟨v, s''⟩
  · rw [stdin_u01, hru] at h
    exact absurd h (by simp)
  rw [stdin_u01, hru] at h
  obtain ⟨hq, hs⟩ : (v : ℚ) / 4294967296 = q ∧ s'' = s' := by
    simpa using h
  subst hs
  have hvlt : v < 4294967296 := by
    rcases hl : streamBytes s with _ | ⟨b0, _ | ⟨b1, _ | ⟨b2, _ | ⟨b3, rest⟩⟩⟩⟩
    · rw [read_uint32_of_short s (by rw [hl]; simp)] at hru; cases hru
    · rw [read_uint32_of_short s (by rw [hl]; simp)] at hru; cases hru
    · rw [read_uint32_of_short s (by rw [hl]; simp)] at hru; cases hru
    · rw [read_uint32_of_short s (by rw [hl]; simp)] at hru; cases hru
    · obtain ⟨t, ht, _⟩ := read_uint32_of_four s b0 b1 b2 b3 rest hl
      rw [hru] at ht
      obtain ⟨hv, _⟩ : le32 b0 b1 b2 b3 = v ∧ t = s'' := by simpa using ht.symm
      rw [hl] at hb
      exact hv ▸ le32_lt b0 b1 b2 b3 (hb b0 (by simp)) (hb b1 (by simp))
        (hb b2 (by simp)) (hb b3 (by simp))
  have hq1 : q < 1 := by
    rw [← hq]
    rw [div_lt_one (by norm_num)]
    exact_mod_cast hvlt
  refine ⟨v, rfl, hq.symm, ?_, hq1, ?_, fun _ => hq1⟩
  · rw [← hq]
    positivity
  · intro hv0
    rw [← hq, hv0]
    norm_num

/-- Witness for C5 on the draw `FF FF FF FF`. -/
theorem c5_witness :
    ((∀ b ∈ streamBytes (initState [255, 255, 255, 255] []), b < 256) ∧
      stdin_u01 (initState [255, 255, 255, 255] []) =
        some (((4294967295 : Nat) : ℚ) / 4294967296,
          { input := [], buffer := [255, 255, 255, 255], buffer_pos := 4,
            sched := [] })) ∧
    (∃ v, read_uint32 (initState [255, 255, 255, 255] []) =
        some (v, { input := [], buffer := [255, 255, 255, 255],
                   buffer_pos := 4, sched := [] }) ∧
      ((4294967295 : Nat) : ℚ) / 4294967296 = (v : ℚ) / 4294967296 ∧
      0 ≤ ((4294967295 : Nat) : ℚ) / 4294967296 ∧
      ((4294967295 : Nat) : ℚ) / 4294967296 < 1 ∧
      (v = 0 → ((4294967295 : Nat) : ℚ) / 4294967296 = 0) ∧
      (v = 4294967295 → ((4294967295 : Nat) : ℚ) / 4294967296 < 1)) :=
  ⟨⟨by decide, by rfl⟩,
    c5_u01_unit_interval (initState [255, 255, 255, 255] []) _ _
      (by decide) (by rfl)⟩

/-- C7: the decoded integer sequence depends only on the logical byte
sequence, not on how `fread` chunks its delivery: any two delivery
schedules (for instance one maximal fill versus byte-by-byte fills) yield
identical `read_uint32` outputs. -/
theorem c7_chunking_transparent (input sched1 sched2 : List Nat) (k : Nat)
    (hk : 4 * k ≤ input.length) :
    ∃ s1 s2,
      reads k (initState input sched1) =
        some (leGroups32 (input.take (4 * k)), s1) ∧
      reads k (initState input sched2) =
        some (leGroups32 (input.take (4 * k)), s2) := by
  obtain ⟨s1, h1, _⟩ := reads_of_streamBytes k (initState input sched1) input
    (streamBytes_initState input sched1) hk
  obtain ⟨s2, h2, _⟩ := reads_of_streamBytes k (initState input sched2) input
    (streamBytes_initState input sched2) hk
  exact ⟨s1, s2, h1, h2⟩

/-- Witness for C7: 4100 bytes (one capacity-crossing stream) delivered in
maximal fills versus 1-byte fills decode identically. -/
theorem c7_witness :
    (4 * 1025 ≤ List.length (List.replicate 4100 0)) ∧
    (∃ s1 s2,
      reads 1025 (initState (List.replicate 4100 0) []) =
        some (leGroups32 (List.take (4 * 1025) (List.replicate 4100 0)), s1) ∧
      reads 1025 (initState (List.replicate 4100 0) (List.replicate 4100 1)) =
        some (leGroups32 (List.take (4 * 1025) (List.replicate 4100 0)), s2)) :=
  ⟨by rw [List.length_replicate],
    c7_chunking_transparent (List.replicate 4100 0) []
      (List.replicate 4100 1) 1025 (by rw [List.length_replicate])⟩

/-! ### C6: the ByteBuffer invariant over reachable states -/

/-- C6 counterexample: the initial state itself is reachable, and it
violates `position ≤ length`: the process starts with
`buffer_pos = BUFFER_SIZE = 4096` and `buffer_len = 0` ("start empty to
trigger first read"). -/
theorem c6_counterexample :
    Reachable [] (initState [] []) ∧
      ¬ ((initState [] []).buffer_pos ≤ (initState [] []).buffer.length) :=
  ⟨Reachable.start, by decide⟩

/-- C6 (amended): every reachable state of the stream reader is either the
initial sentinel state (`buffer_pos = 4096`, `buffer_len = 0`) or
satisfies the ByteBuffer invariant `position ≤ length ∧ length ≤ capacity`;
in particular the invariant holds after every byte-consuming step. -/
theorem c6_invariant_after_start (input : List Nat) (s : ReaderState)
    (h : Reachable input s) :
    s = initState input [] ∨
      (s.buffer_pos ≤ s.buffer.length ∧ s.buffer.length ≤ BUFFER_SIZE) := by
  induction h with
  | start => exact Or.inl rfl
  | step s b s' hreach heq ih =>
    right
    by_cases hp : s.buffer_pos ≥ s.buffer.length
    · -- the step refilled the buffer
      rw [read_byte, if_pos hp] at heq
      simp only [refill_buffer, decide_eq_true_eq] at heq
      by_cases hc : 0 < (s.input.take
          (min (max (s.sched.headD BUFFER_SIZE) 1) BUFFER_SIZE)).length
      · rw [if_pos hc] at heq
        simp only [Option.some.injEq, Prod.mk.injEq] at heq
        obtain ⟨-, heq2⟩ := heq
        simp only [List.length_take] at hc
        refine ⟨?_, ?_⟩ <;> rw [← heq2] <;> simp only [List.length_take] <;>
          omega
      · rw [if_neg hc] at heq
        cases heq
    · -- an unread byte was consumed directly
      rw [read_byte, if_neg hp] at heq
      simp only [Option.some.injEq, Prod.mk.injEq] at heq
      obtain ⟨_, heq2⟩ := heq
      push_neg at hp
      rcases ih with hinit | ⟨_, hcap⟩
      · rw [hinit, initState] at hp
        simp at hp
      · rw [← heq2]
        exact ⟨by simpa using hp, by simpa using hcap⟩

/-- Witness for C6's amended invariant: the state after consuming one byte
of the input `[7]` is reachable and satisfies the invariant. -/
theorem c6_witness :
    Reachable [7]
      { input := [], buffer := [7], buffer_pos := 1, sched := [] } ∧
    ({ input := [], buffer := [7], buffer_pos := 1, sched := [] } =
        initState [7] [] ∨
      (({ input := [], buffer := [7], buffer_pos := 1,
          sched := [] } : ReaderState).buffer_pos ≤
          ({ input := [], buffer := [7], buffer_pos := 1,
             sched := [] } : ReaderState).buffer.length ∧
        ({ input := [], buffer := [7], buffer_pos := 1,
           sched := [] } : ReaderState).buffer.length ≤ BUFFER_SIZE)) :=
  have hr : Reachable [7]
      { input := [], buffer := [7], buffer_pos := 1, sched := [] } :=
    Reachable.step (initState [7] []) 7
      { input := [], buffer := [7], buffer_pos := 1, sched := [] }
      Reachable.start (by decide)
  ⟨hr, c6_invariant_after_start [7] _ hr⟩

/-! ### The command-line layer of `main` -/

/-- The observable outcome of `main`'s argument scan.  `help` is the
`-h`/`--help` branch: usage text is printed to standard output and `main`
returns 0 at once, before the generator is created, so standard input is
never read and no battery runs.  `run t name` proceeds to construct the
generator named `name` and dispatch battery `t` (0 = SmallCrush,
1 = Crush, 2 = BigCrush). -/
inductive MainAction where
  | help
  | run (test_type : Nat) (name : String)
deriving Repr, DecidableEq

/-- The argument-scanning loop of `main`, carrying the current `test_type`
and `name`; called on `argv[1..]` with the defaults `2` (BigCrush) and
"Rust RNG". -/
def parse_loop : List String → Nat → String → MainAction
  | [], t, n => MainAction.run t n
  | a :: rest, t, n =>
    if a = "-s" ∨ a = "--small" then parse_loop rest 0 n
    else if a = "-m" ∨ a = "--medium" then parse_loop rest 1 n
    else if a = "-b" ∨ a = "--big" then parse_loop rest 2 n
    else if a = "-n" ∨ a = "--name" then
      match rest with
      | v :: rest' => parse_loop rest' t v
      | [] => MainAction.run t n
    else if a = "-h" ∨ a = "--help" then MainAction.help
    else parse_loop rest t n

/-- `main` on the given command-line arguments (`argv[1..]`). -/
def main_model (args : List String) : MainAction :=
  parse_loop args 2 "Rust RNG"

theorem parse_loop_cons (a : String) (rest : List String) (t : Nat)
    (n : String) :
    parse_loop (a :: rest) t n =
      if a = "-s" ∨ a = "--small" then parse_loop rest 0 n
      else if a = "-m" ∨ a = "--medium" then parse_loop rest 1 n
      else if a = "-b" ∨ a = "--big" then parse_loop rest 2 n
      else if a = "-n" ∨ a = "--name" then
        match rest with
        | v :: rest' => parse_loop rest' t v
        | [] => MainAction.run t n
      else if a = "-h" ∨ a = "--help" then MainAction.help
      else parse_loop rest t n := by
  cases rest with
  | nil => simp only [parse_loop]
  | cons v rest' => simp only [parse_loop]

/-- C8 counterexample: the command line `-n -h` contains `-h`, yet the
program does not print usage and exit: the `-n` branch consumes `-h` as
the generator name and BigCrush is dispatched. -/
theorem c8_counterexample :
    "-h" ∈ ["-n", "-h"] ∧
      main_model ["-n", "-h"] = MainAction.run 2 "-h" ∧
      main_model ["-n", "-h"] ≠ MainAction.help := by
  refine ⟨by decide, by decide, by decide⟩

/-- C8 (amended): for every command line containing `-h` or `--help` with
no occurrence of `-n` or `--name` anywhere before it (so the flag cannot
be consumed as a name value), `main` takes the help branch: usage text is
printed, the process exits with status 0, standard input is never read,
and no battery runs. -/
theorem c8_help_exits_before_reading (l1 l2 : List String) (a : String)
    (ha : a = "-h" ∨ a = "--help")
    (h1 : "-n" ∉ l1) (h2 : "--name" ∉ l1) :
    main_model (l1 ++ a :: l2) = MainAction.help := by
  have hgen : ∀ (l : List String) (t : Nat) (n : String),
      "-n" ∉ l → "--name" ∉ l → parse_loop (l ++ a :: l2) t n =
        MainAction.help := by
    intro l
    induction l with
    | nil =>
      intro t n _ _
      rw [List.nil_append, parse_loop_cons]
      rcases ha with rfl | rfl
      · rw [if_neg (by decide), if_neg (by decide), if_neg (by decide),
          if_neg (by decide), if_pos (by decide)]
      · rw [if_neg (by decide), if_neg (by decide), if_neg (by decide),
          if_neg (by decide), if_pos (by decide)]
    | cons x l ih =>
      intro t n hx1 hx2
      simp only [List.mem_cons, not_or] at hx1 hx2
      rw [List.cons_append, parse_loop_cons]
      split_ifs with h_1 h_2 h_3 h_4 h_5
      · exact ih 0 n hx1.2 hx2.2
      · exact ih 1 n hx1.2 hx2.2
      · exact ih 2 n hx1.2 hx2.2
      · exact absurd h_4 (by tauto)
      · rfl
      · exact ih t n hx1.2 hx2.2
  exact hgen l1 2 "Rust RNG" h1 h2

/-- Witness for C8's amended theorem on the command line `-s -h`. -/
theorem c8_witness :
    (("-h" = "-h" ∨ "-h" = "--help") ∧ "-n" ∉ ["-s"] ∧ "--name" ∉ ["-s"]) ∧
      main_model (["-s"] ++ "-h" :: []) = MainAction.help :=
  ⟨⟨Or.inl rfl, by decide, by decide⟩,
    c8_help_exits_before_reading ["-s"] [] "-h" (Or.inl rfl)
      (by decide) (by decide)⟩

/-- C9: when `-n` or `--name` is the final argument with no value after
it, the scan neither fails nor consumes anything: whatever battery
selection `t` and name `n` have accumulated, the program proceeds to run
battery `t` with name `n` unchanged; with no earlier flags the defaults
(BigCrush, "Rust RNG") are used. -/
theorem c9_trailing_name_is_noop :
    (∀ (t : Nat) (n : String),
        parse_loop ["-n"] t n = MainAction.run t n ∧
        parse_loop ["--name"] t n = MainAction.run t n) ∧
      main_model ["-n"] = MainAction.run 2 "Rust RNG" ∧
      main_model ["--name"] = MainAction.run 2 "Rust RNG" := by
  refine ⟨fun t n => ⟨?_, ?_⟩, by decide, by decide⟩
  · rw [parse_loop_cons, if_neg (by decide), if_neg (by decide),
      if_neg (by decide), if_pos (by decide)]
  · rw [parse_loop_cons, if_neg (by decide), if_neg (by decide),
      if_neg (by decide), if_pos (by decide)]

/-- Does the argument select a battery (`-s`, `-m`, `-b` and long forms)? -/
def isBatteryFlag (a : String) : Bool :=
  a == "-s" || a == "--small" || a == "-m" || a == "--medium" ||
    a == "-b" || a == "--big"

/-- Does the argument match any flag `main` recognises? -/
def isKnownFlag (a : String) : Bool :=
  isBatteryFlag a || a == "-n" || a == "--name" || a == "-h" || a == "--help"

/-- The `test_type` a battery flag selects. -/
def batteryVal (a : String) : Nat :=
  if a == "-s" || a == "--small" then 0
  else if a == "-m" || a == "--medium" then 1
  else 2

/-- The battery selected by the last battery flag of the argument list,
or the incoming selection `t` if there is none. -/
def lastBatterySelection (args : List String) (t : Nat) : Nat :=
  match (args.filter isBatteryFlag).getLast? with
  | some a => batteryVal a
  | none => t

theorem parse_loop_battery (a : String) (rest : List String) (t : Nat)
    (n : String) (hb : isBatteryFlag a = true) :
    parse_loop (a :: rest) t n = parse_loop rest (batteryVal a) n := by
  simp only [isBatteryFlag, Bool.or_eq_true, beq_iff_eq] at hb
  rcases hb with ⟨⟨⟨⟨hs | hs⟩ | hs⟩ | hs⟩ | hs⟩ | hs <;> subst hs <;>
    rw [parse_loop_cons] <;> simp [batteryVal]

theorem lastBatterySelection_cons_battery (a : String) (args : List String)
    (t : Nat) (hb : isBatteryFlag a = true) :
    lastBatterySelection (a :: args) t =
      lastBatterySelection args (batteryVal a) := by
  unfold lastBatterySelection
  rw [List.filter_cons_of_pos hb]
  cases hfa : args.filter isBatteryFlag with
  | nil => simp
  | cons x xs =>
    rw [List.getLast?_cons_cons]
    rcases hl : (x :: xs).getLast? with _ | y
    · exact absurd (List.getLast?_eq_none_iff.mp hl) (by simp)
    · rfl

theorem lastBatterySelection_cons_skip (a : String) (args : List String)
    (t : Nat) (hb : isBatteryFlag a = false) :
    lastBatterySelection (a :: args) t = lastBatterySelection args t := by
  unfold lastBatterySelection
  rw [List.filter_cons_of_neg (by simp [hb])]

/-- C10: the scan runs left to right over all arguments; an argument
matching no known flag is skipped silently with no effect, and over any
argument list of battery flags and unknown arguments the battery that runs
is the one of the last battery flag (the incoming selection if none),
with the name untouched. -/
theorem c10_last_battery_flag_wins :
    (∀ (a : String) (rest : List String) (t : Nat) (n : String),
        isKnownFlag a = false →
        parse_loop (a :: rest) t n = parse_loop rest t n) ∧
    (∀ (args : List String) (t : Nat) (n : String),
        (∀ a ∈ args, isBatteryFlag a = true ∨ isKnownFlag a = false) →
        parse_loop args t n =
          MainAction.run (lastBatterySelection args t) n) := by
  have hskip : ∀ (a : String) (rest : List String) (t : Nat) (n : String),
      isKnownFlag a = false → parse_loop (a :: rest) t n =
        parse_loop rest t n := by
    intro a rest t n h
    simp only [isKnownFlag, isBatteryFlag, Bool.or_eq_false_iff,
      beq_eq_false_iff_ne, ne_eq] at h
    rw [parse_loop_cons]
    split_ifs with h_1 h_2 h_3 h_4 h_5
    · exact absurd h_1 (by tauto)
    · exact absurd h_2 (by tauto)
    · exact absurd h_3 (by tauto)
    · exact absurd h_4 (by tauto)
    · exact absurd h_5 (by tauto)
    · rfl
  refine ⟨hskip, ?_⟩
  intro args
  induction args with
  | nil => intro t n _; simp [parse_loop, lastBatterySelection]
  | cons a args ih =>
    intro t n h
    have hrest : ∀ x ∈ args, isBatteryFlag x = true ∨ isKnownFlag x = false :=
      fun x hx => h x (List.mem_cons_of_mem a hx)
    rcases h a (List.mem_cons_self a args) with hb | hu
    · rw [parse_loop_battery a args t n hb, ih (batteryVal a) n hrest,
        lastBatterySelection_cons_battery a args t hb]
    · have hbf : isBatteryFlag a = false := by
        simp only [isKnownFlag, Bool.or_eq_false_iff] at hu
        exact hu.1.1.1.1
      rw [hskip a args t n hu, ih t n hrest,
        lastBatterySelection_cons_skip a args t hbf]

/-- Witness for C10: an unknown argument `-x` is skipped, and in
`-s -x -m` the last battery flag `-m` (Crush) wins. -/
theorem c10_witness :
    (isKnownFlag "-x" = false ∧
      parse_loop ["-x", "-h"] 2 "Rust RNG" = parse_loop ["-h"] 2 "Rust RNG") ∧
    ((∀ a ∈ ["-s", "-x", "-m"],
        isBatteryFlag a = true ∨ isKnownFlag a = false) ∧
      parse_loop ["-s", "-x", "-m"] 2 "Rust RNG" =
        MainAction.run (lastBatterySelection ["-s", "-x", "-m"] 2)
          "Rust RNG") :=
  ⟨⟨by decide, c10_last_battery_flag_wins.1 "-x" ["-h"] 2 "Rust RNG"
      (by decide)⟩,
   ⟨by decide, c10_last_battery_flag_wins.2 ["-s", "-x", "-m"] 2 "Rust RNG"
      (by decide)⟩⟩

end BigcrushWrapper
